import Mathlib

/-!
Verification of the mica game engine (state model, move generator, alpha-beta
minimax) against its specification.  The Rust source is embedded shallowly:
`u8` counters become `Nat`, `i8` cell values become the three-valued
`MicaPlayer`, the boxed `[[[MicaPlayer; 3]; 3]; 3]` array becomes a flat
`List MicaPlayer` of length 27 in row-major order (index `x*9 + y*3 + z`),
and `i32` search values become `Int` together with the explicit sentinels
`i32Min` / `i32Max` (no arithmetic in the search can overflow 32 bits, so
`Int` is a faithful model).  The recursive search mutates its state in place
in the source; here the state is threaded explicitly, so `minimax` returns
the final state along with the value and move.
-/

namespace Mica

/-- The cell/player value: `None = 0`, `White = 1`, `Black = -1` in the source. -/
inductive MicaPlayer where
  | None
  | White
  | Black
deriving DecidableEq, Fintype

/-- Numeric weight of a player, the `as i8` coercion of the source enum. -/
def MicaPlayer.val : MicaPlayer → Int
  | .None => 0
  | .White => 1
  | .Black => -1

/-- `into_next_player`: the source negates the `i8` representation, which maps
White to Black, Black to White and None to None. -/
def MicaPlayer.intoNextPlayer : MicaPlayer → MicaPlayer
  | .None => .None
  | .White => .Black
  | .Black => .White

/-- The four move variants of the source `MicaMove` enum. -/
inductive MicaMove where
  | Set (x y z : Nat)
  | Move (from_x from_y from_z to_x to_y to_z : Nat)
  | SetRemove (x y z remove_x remove_y remove_z : Nat)
  | MoveRemove (from_x from_y from_z to_x to_y to_z remove_x remove_y remove_z : Nat)
deriving DecidableEq

/-- The 3x3x3 stone array, flattened row-major: cell `(x, y, z)` lives at
index `x*9 + y*3 + z`. -/
abbrev Board := List MicaPlayer

/-- Read `stones[x][y][z]`.  Out-of-range indices (never produced by the
source's code paths) default to `None`. -/
def getStone (b : Board) (x y z : Nat) : MicaPlayer :=
  b.getD (x * 9 + y * 3 + z) .None

/-- Write `stones[x][y][z] = p` (`List.set` is the identity out of range). -/
def setStone (b : Board) (x y z : Nat) (p : MicaPlayer) : Board :=
  b.set (x * 9 + y * 3 + z) p

/-- The source `MicaState` struct.  The `u8` counters are modelled as `Nat`. -/
structure MicaState where
  current_player : MicaPlayer
  white_remaining : Nat
  black_remaining : Nat
  white_to_set : Nat
  black_to_set : Nat
  stones : Board
deriving DecidableEq

/-- `MicaState::new()`: empty board, nine stones to place for each side,
White to move. -/
def MicaState.new : MicaState where
  current_player := .White
  white_remaining := 0
  black_remaining := 0
  white_to_set := 9
  black_to_set := 9
  stones := List.replicate 27 .None

/-- `increment_player`.  The source's `None` arm is `unreachable!`; it is
modelled as the identity and every theorem below only reaches these helpers
with a White or Black current player. -/
def increment_player (s : MicaState) : MicaState :=
  match s.current_player with
  | .White => { s with white_remaining := s.white_remaining + 1 }
  | .Black => { s with black_remaining := s.black_remaining + 1 }
  | .None => s

/-- `increment_oponent` (sic, the source's spelling). -/
def increment_oponent (s : MicaState) : MicaState :=
  match s.current_player with
  | .White => { s with black_remaining := s.black_remaining + 1 }
  | .Black => { s with white_remaining := s.white_remaining + 1 }
  | .None => s

/-- `decrement_player`; `u8` subtraction is modelled by truncated `Nat`
subtraction, and every use below carries a positivity hypothesis. -/
def decrement_player (s : MicaState) : MicaState :=
  match s.current_player with
  | .White => { s with white_remaining := s.white_remaining - 1 }
  | .Black => { s with black_remaining := s.black_remaining - 1 }
  | .None => s

/-- `decrement_oponent`. -/
def decrement_oponent (s : MicaState) : MicaState :=
  match s.current_player with
  | .White => { s with black_remaining := s.black_remaining - 1 }
  | .Black => { s with white_remaining := s.white_remaining - 1 }
  | .None => s

/-- `increment_remaining_to_set`. -/
def increment_remaining_to_set (s : MicaState) : MicaState :=
  match s.current_player with
  | .White => { s with white_to_set := s.white_to_set + 1 }
  | .Black => { s with black_to_set := s.black_to_set + 1 }
  | .None => s

/-- `decrement_remaining_to_set`. -/
def decrement_remaining_to_set (s : MicaState) : MicaState :=
  match s.current_player with
  | .White => { s with white_to_set := s.white_to_set - 1 }
  | .Black => { s with black_to_set := s.black_to_set - 1 }
  | .None => s

/-- `apply_move`, exactly the four arms of the source `match`. -/
def apply_move (s : MicaState) (m : MicaMove) : MicaState :=
  match m with
  | .Set x y z =>
      decrement_remaining_to_set (increment_player
        { s with stones := setStone s.stones x y z s.current_player })
  | .Move fx fy fz tx ty tz =>
      { s with stones := setStone (setStone s.stones fx fy fz .None) tx ty tz s.current_player }
  | .SetRemove x y z rx ry rz =>
      decrement_remaining_to_set (decrement_oponent (increment_player
        { s with stones := setStone (setStone s.stones x y z s.current_player) rx ry rz .None }))
  | .MoveRemove fx fy fz tx ty tz rx ry rz =>
      decrement_oponent
        { s with stones := setStone (setStone (setStone s.stones fx fy fz .None)
            tx ty tz s.current_player) rx ry rz .None }

/-- `undo_move`, exactly the four arms of the source `match`. -/
def undo_move (s : MicaState) (m : MicaMove) : MicaState :=
  match m with
  | .Set x y z =>
      increment_remaining_to_set (decrement_player
        { s with stones := setStone s.stones x y z .None })
  | .Move fx fy fz tx ty tz =>
      { s with stones := setStone (setStone s.stones fx fy fz s.current_player) tx ty tz .None }
  | .SetRemove x y z rx ry rz =>
      increment_remaining_to_set (increment_oponent (decrement_player
        { s with stones := (setStone (setStone s.stones x y z .None) rx ry rz
            s.current_player.intoNextPlayer) }))
  | .MoveRemove fx fy fz tx ty tz rx ry rz =>
      increment_oponent
        { s with stones := setStone (setStone (setStone s.stones fx fy fz s.current_player)
            tx ty tz .None) rx ry rz s.current_player.intoNextPlayer }

/-- `line_check`: does one of the three lines through `(x, y, z)` (fixed-x-y
varying z, fixed-x-z varying y, fixed-y-z varying x) have a signed cell sum of
absolute value `target`? -/
def line_check (s : MicaState) (x y z : Nat) (target : Nat) : Bool :=
  let sum1 : Int := (getStone s.stones x y 0).val + (getStone s.stones x y 1).val +
    (getStone s.stones x y 2).val
  let sum2 : Int := (getStone s.stones x 0 z).val + (getStone s.stones x 1 z).val +
    (getStone s.stones x 2 z).val
  let sum3 : Int := (getStone s.stones 0 y z).val + (getStone s.stones 1 y z).val +
    (getStone s.stones 2 y z).val
  sum1.natAbs == target || sum2.natAbs == target || sum3.natAbs == target

/-- `is_in_line`: the cell sits on a completed line (sum of absolute value 3). -/
def is_in_line (s : MicaState) (x y z : Nat) : Bool :=
  line_check s x y z 3

/-- `will_make_line`: some line through the cell sums to absolute value 2. -/
def will_make_line (s : MicaState) (x y z : Nat) : Bool :=
  line_check s x y z 2

/-- `is_setting_phase`: both players still have stones to place. -/
def is_setting_phase (s : MicaState) : Bool :=
  decide (0 < s.white_to_set) && decide (0 < s.black_to_set)

/-- `is_end`: the placement phase is over for both sides and someone is down
to two stones. -/
def is_end (s : MicaState) : Bool :=
  (s.white_to_set == 0 && s.black_to_set == 0) &&
    (s.white_remaining == 2 || s.black_remaining == 2)

/-- `eval`: `white_remaining - black_remaining` as a signed integer. -/
def eval (s : MicaState) : Int :=
  (s.white_remaining : Int) - (s.black_remaining : Int)

/-- `get_neighboaring_empty_spots` (sic): the empty orthogonal neighbours of a
cell, cross-ring neighbours only at edge midpoints, centers filtered out. -/
def get_neighboaring_empty_spots (s : MicaState) (x y z : Nat) : List (Nat × Nat × Nat) :=
  let spots : List (Nat × Nat × Nat) :=
    (if 0 < z ∧ getStone s.stones x y (z - 1) = .None then [(x, y, z - 1)] else []) ++
    (if z < 2 ∧ getStone s.stones x y (z + 1) = .None then [(x, y, z + 1)] else []) ++
    (if 0 < y ∧ getStone s.stones x (y - 1) z = .None then [(x, y - 1, z)] else []) ++
    (if y < 2 ∧ getStone s.stones x (y + 1) z = .None then [(x, y + 1, z)] else []) ++
    (if (y = 1 ∧ (z = 0 ∨ z = 2)) ∨ (z = 1 ∧ (y = 0 ∨ y = 2)) then
      (if 0 < x ∧ getStone s.stones (x - 1) y z = .None then [(x - 1, y, z)] else []) ++
      (if x < 2 ∧ getStone s.stones (x + 1) y z = .None then [(x + 1, y, z)] else [])
    else [])
  spots.filter fun t => decide (¬(t.2.1 = 1 ∧ t.2.2 = 1))

/-- The loop range `0..3` of the source's `for` loops. -/
def range3 : List Nat := [0, 1, 2]

/-- `get_oponent_stones` (sic): opponent-owned cells not on a completed line,
in ascending scan order. -/
def get_oponent_stones (s : MicaState) : List (Nat × Nat × Nat) :=
  range3.flatMap fun x => range3.flatMap fun y => range3.flatMap fun z =>
    if getStone s.stones x y z = s.current_player.intoNextPlayer ∧ is_in_line s x y z = false
    then [(x, y, z)] else []

/-- `get_moves`: the move generator, phase-split exactly as in the source. -/
def get_moves (s : MicaState) : List MicaMove :=
  if is_setting_phase s = true then
    range3.flatMap fun x => range3.flatMap fun y => range3.flatMap fun z =>
      if y = 1 ∧ z = 1 then []
      else if getStone s.stones x y z = .None then
        (if will_make_line s x y z = true then
          (get_oponent_stones s).map fun r => MicaMove.SetRemove x y z r.1 r.2.1 r.2.2
        else [MicaMove.Set x y z])
      else []
  else
    range3.flatMap fun fx => range3.flatMap fun fy => range3.flatMap fun fz =>
      if fy = 1 ∧ fz = 1 then []
      else if getStone s.stones fx fy fz = .None then
        (get_neighboaring_empty_spots s fx fy fz).flatMap fun t =>
          if will_make_line s t.1 t.2.1 t.2.2 = true then
            (get_oponent_stones s).map fun r =>
              MicaMove.MoveRemove fx fy fz t.1 t.2.1 t.2.2 r.1 r.2.1 r.2.2
          else [MicaMove.Move fx fy fz t.1 t.2.1 t.2.2]
      else []

/-- `i32::MIN`. -/
def i32Min : Int := -(2 ^ 31)

/-- `i32::MAX`. -/
def i32Max : Int := 2 ^ 31 - 1

/-- `self.current_player.toggle()`. -/
def toggle (s : MicaState) : MicaState :=
  { s with current_player := s.current_player.intoNextPlayer }

/-- One step result of the search: the final (threaded) state, the value, and
the best move. -/
abbrev SearchResult := MicaState × Int × Option MicaMove

/-- The White (maximizing) `for` loop of `minimax`, state threaded explicitly;
`mm` is the recursive call at depth - 1.  A `Option.none` result models the
source's fatal "no player" arm. -/
def whiteLoop (mm : MicaState → Int → Int → Option SearchResult) (b : Int) :
    List MicaMove → MicaState → Int → Option MicaMove → Int → Option SearchResult
  | [], s, best_value, best_move, _ => some (s, best_value, best_move)
  | m :: rest, s, best_value, best_move, a =>
      match mm (toggle (apply_move s m)) a b with
      | Option.none => Option.none
      | some (s2, new_value, _) =>
          let s3 := toggle s2
          let bv := if best_move = Option.none ∨ new_value > best_value then new_value
            else best_value
          let bm := if best_move = Option.none ∨ new_value > best_value then some m
            else best_move
          let s4 := undo_move s3 m
          if new_value > b then some (s4, bv, bm)
          else whiteLoop mm b rest s4 bv bm (max a new_value)

/-- The Black (minimizing) `for` loop of `minimax`. -/
def blackLoop (mm : MicaState → Int → Int → Option SearchResult) (a : Int) :
    List MicaMove → MicaState → Int → Option MicaMove → Int → Option SearchResult
  | [], s, best_value, best_move, _ => some (s, best_value, best_move)
  | m :: rest, s, best_value, best_move, b =>
      match mm (toggle (apply_move s m)) a b with
      | Option.none => Option.none
      | some (s2, new_value, _) =>
          let s3 := toggle s2
          let bv := if best_move = Option.none ∨ new_value < best_value then new_value
            else best_value
          let bm := if best_move = Option.none ∨ new_value < best_value then some m
            else best_move
          let s4 := undo_move s3 m
          if new_value < a then some (s4, bv, bm)
          else blackLoop mm a rest s4 bv bm (min b new_value)

/-- `minimax(depth, a, b)` on a state: alpha-beta search exactly as in the
source, with the in-place mutation made explicit (the returned state is the
state as the source leaves it when the call returns).  The source's
fatal "Reached invalid state of None player" arm is `Option.none`. -/
def minimax : Nat → MicaState → Int → Int → Option SearchResult
  | 0, s, _, _ => some (s, eval s, Option.none)
  | depth + 1, s, a, b =>
      if is_end s = true then some (s, eval s, Option.none)
      else
        match s.current_player with
        | .White => whiteLoop (minimax depth) b (get_moves s) s i32Min Option.none a
        | .Black => blackLoop (minimax depth) a (get_moves s) s i32Max Option.none b
        | .None => Option.none

/-- Modelled from the spec: the full-width White loop of the reference
"no pruning" minimax of spec section 8 — identical to `whiteLoop` but with the
alpha-beta window and the break removed. -/
def whiteLoopFull (mm : MicaState → Option SearchResult) :
    List MicaMove → MicaState → Int → Option MicaMove → Option SearchResult
  | [], s, best_value, best_move => some (s, best_value, best_move)
  | m :: rest, s, best_value, best_move =>
      match mm (toggle (apply_move s m)) with
      | Option.none => Option.none
      | some (s2, new_value, _) =>
          let s3 := toggle s2
          let bv := if best_move = Option.none ∨ new_value > best_value then new_value
            else best_value
          let bm := if best_move = Option.none ∨ new_value > best_value then some m
            else best_move
          whiteLoopFull mm rest (undo_move s3 m) bv bm

/-- Modelled from the spec: the full-width Black loop (no pruning). -/
def blackLoopFull (mm : MicaState → Option SearchResult) :
    List MicaMove → MicaState → Int → Option MicaMove → Option SearchResult
  | [], s, best_value, best_move => some (s, best_value, best_move)
  | m :: rest, s, best_value, best_move =>
      match mm (toggle (apply_move s m)) with
      | Option.none => Option.none
      | some (s2, new_value, _) =>
          let s3 := toggle s2
          let bv := if best_move = Option.none ∨ new_value < best_value then new_value
            else best_value
          let bm := if best_move = Option.none ∨ new_value < best_value then some m
            else best_move
          blackLoopFull mm rest (undo_move s3 m) bv bm

/-- Modelled from the spec: the full-width (no pruning) fixed-depth minimax of
spec section 8, over the same move generator and the same state threading as
the source search, with the alpha-beta window and both break statements
removed. -/
def minimax_full : Nat → MicaState → Option SearchResult
  | 0, s => some (s, eval s, Option.none)
  | depth + 1, s =>
      if is_end s = true then some (s, eval s, Option.none)
      else
        match s.current_player with
        | .White => whiteLoopFull (minimax_full depth) (get_moves s) s i32Min Option.none
        | .Black => blackLoopFull (minimax_full depth) (get_moves s) s i32Max Option.none
        | .None => Option.none

/-- A movement-phase position (both to-place counters zero, three stones each
on the board, White to move): White at (0,0,0), (0,0,1), (1,0,0); Black at
(2,0,0), (2,0,2), (2,2,0). -/
def micaS0 : MicaState where
  current_player := .White
  white_remaining := 3
  black_remaining := 3
  white_to_set := 0
  black_to_set := 0
  stones :=
    [.White, .White, .None, .None, .None, .None, .None, .None, .None,
     .White, .None, .None, .None, .None, .None, .None, .None, .None,
     .Black, .None, .Black, .None, .None, .None, .Black, .None, .None]

/-- A placement-phase position: Black at (0,0,0) and (0,0,1), White at
(2,0,0) and (2,2,2), two stones each on the board, seven left to place each,
White to move.  The empty cell (0,0,2) completes a Black pair, not a White
one. -/
def micaS1 : MicaState where
  current_player := .White
  white_remaining := 2
  black_remaining := 2
  white_to_set := 7
  black_to_set := 7
  stones :=
    [.Black, .Black, .None, .None, .None, .None, .None, .None, .None,
     .None, .None, .None, .None, .None, .None, .None, .None, .None,
     .White, .None, .None, .None, .None, .None, .None, .None, .White]

/-- A movement-phase position (White 8 stones, Black 9, White to move) on
which the pruned and the full-width search disagree at depth 2. -/
def micaC2 : MicaState where
  current_player := .White
  white_remaining := 8
  black_remaining := 9
  white_to_set := 0
  black_to_set := 0
  stones :=
    [.White, .White, .White, .White, .None, .None, .None, .Black, .White,
     .White, .White, .None, .None, .None, .White, .Black, .Black, .Black,
     .None, .None, .Black, .Black, .None, .None, .Black, .Black, .Black]

/-! ### Generic list helpers -/

theorem mem_ite_singleton {α : Type} {c : Prop} [Decidable c] {a v : α} :
    a ∈ (if c then [v] else []) ↔ c ∧ a = v := by
  split <;> simp_all

theorem mem_range3 {n : Nat} : n ∈ range3 ↔ n < 3 := by
  simp [range3]
  omega

theorem getD_set {α : Type} (l : List α) (i n : Nat) (v d : α) :
    (l.set i v).getD n d = if n = i ∧ i < l.length then v else l.getD n d := by
  induction l generalizing i n with
  | nil => simp [List.set]
  | cons a t ih =>
    cases i with
    | zero =>
      cases n with
      | zero => simp [List.getD]
      | succ m => simp [List.getD]
    | succ k =>
      cases n with
      | zero => simp [List.getD]
      | succ m =>
        simp only [List.set_cons_succ, List.getD_cons_succ, List.length_cons]
        rw [ih]
        by_cases h1 : m = k ∧ k < t.length
        · rw [if_pos h1, if_pos (by omega)]
        · rw [if_neg h1, if_neg (by omega)]

theorem board_ext : ∀ (l1 l2 : Board), l1.length = l2.length →
    (∀ n, l1.getD n .None = l2.getD n .None) → l1 = l2
  | [], [], _, _ => rfl
  | [], _ :: _, h, _ => by simp at h
  | _ :: _, [], h, _ => by simp at h
  | a :: t1, b :: t2, h, hp => by
    have h0 := hp 0
    simp [List.getD] at h0
    have ht := board_ext t1 t2 (by simpa using h) fun n => by
      simpa [List.getD] using hp (n + 1)
    rw [h0, ht]

/-! ### Restoration lemmas for the stone array -/

theorem restore_set (l : Board) (i : Nat) (w : MicaPlayer) (hi : l.getD i .None = .None) :
    (l.set i w).set i .None = l := by
  apply board_ext
  · simp
  · intro n
    simp only [getD_set, List.length_set]
    by_cases h : n = i ∧ i < l.length
    · obtain ⟨rfl, _⟩ := h
      simp_all
    · simp [h]

theorem restore_move (l : Board) (i j : Nat) (w : MicaPlayer)
    (hi : l.getD i .None = w) (hj : l.getD j .None = .None) (hw : w ≠ .None) :
    (((l.set i .None).set j w).set i w).set j .None = l := by
  apply board_ext
  · simp
  · intro n
    simp only [getD_set, List.length_set]
    by_cases h1 : n = j ∧ j < l.length
    · obtain ⟨rfl, _⟩ := h1
      simp_all
    · by_cases h2 : n = i ∧ i < l.length
      · obtain ⟨rfl, _⟩ := h2
        simp_all
      · simp [h1, h2]

theorem restore_setremove (l : Board) (i r : Nat) (w opp : MicaPlayer)
    (hi : l.getD i .None = .None) (hr : l.getD r .None = opp) (hopp : opp ≠ .None) :
    (((l.set i w).set r .None).set i .None).set r opp = l := by
  apply board_ext
  · simp
  · intro n
    simp only [getD_set, List.length_set]
    by_cases h1 : n = r ∧ r < l.length
    · obtain ⟨rfl, _⟩ := h1
      simp_all
    · by_cases h2 : n = i ∧ i < l.length
      · obtain ⟨rfl, _⟩ := h2
        simp_all
      · simp [h1, h2]

theorem restore_moveremove (l : Board) (i j r : Nat) (w opp : MicaPlayer)
    (hi : l.getD i .None = w) (hj : l.getD j .None = .None) (hr : l.getD r .None = opp)
    (hw : w ≠ .None) (hopp : opp ≠ .None) :
    (((((l.set i .None).set j w).set r .None).set i w).set j .None).set r opp = l := by
  apply board_ext
  · simp
  · intro n
    simp only [getD_set, List.length_set]
    by_cases h1 : n = r ∧ r < l.length
    · obtain ⟨rfl, _⟩ := h1
      simp_all
    · by_cases h2 : n = j ∧ j < l.length
      · obtain ⟨rfl, _⟩ := h2
        simp_all
      · by_cases h3 : n = i ∧ i < l.length
        · obtain ⟨rfl, hlt⟩ := h3
          rw [if_neg h1, if_neg h2, if_pos ⟨rfl, hlt⟩]
          exact hi.symm
        · simp [h1, h2, h3]

/-! ### Membership characterisations of the move generator -/

theorem mem_get_oponent_stones {s : MicaState} {x y z : Nat} :
    (x, y, z) ∈ get_oponent_stones s ↔
      x < 3 ∧ y < 3 ∧ z < 3 ∧
      getStone s.stones x y z = s.current_player.intoNextPlayer ∧
      is_in_line s x y z = false := by
  simp only [get_oponent_stones, List.mem_flatMap, mem_range3, mem_ite_singleton,
    Prod.mk.injEq]
  constructor
  · rintro ⟨a, ha, b, hb, c, hc, ⟨h1, h2⟩, rfl, rfl, rfl⟩
    exact ⟨ha, hb, hc, h1, h2⟩
  · rintro ⟨hx, hy, hz, h1, h2⟩
    exact ⟨x, hx, y, hy, z, hz, ⟨h1, h2⟩, rfl, rfl, rfl⟩

theorem not_center_of_mem_neighb {s : MicaState} {x y z : Nat} {t : Nat × Nat × Nat}
    (h : t ∈ get_neighboaring_empty_spots s x y z) : ¬(t.2.1 = 1 ∧ t.2.2 = 1) := by
  simp only [get_neighboaring_empty_spots, List.mem_filter] at h
  exact of_decide_eq_true h.2

theorem mem_get_moves_setting {s : MicaState} (hs : is_setting_phase s = true) {m : MicaMove} :
    m ∈ get_moves s ↔
      ∃ x y z, x < 3 ∧ y < 3 ∧ z < 3 ∧ ¬(y = 1 ∧ z = 1) ∧
        getStone s.stones x y z = .None ∧
        ((will_make_line s x y z = true ∧
          ∃ r ∈ get_oponent_stones s, m = .SetRemove x y z r.1 r.2.1 r.2.2) ∨
         (will_make_line s x y z = false ∧ m = .Set x y z)) := by
  rw [get_moves, if_pos hs]
  simp only [List.mem_flatMap, mem_range3]
  constructor
  · rintro ⟨x, hx, y, hy, z, hz, hm⟩
    refine ⟨x, y, z, hx, hy, hz, ?_⟩
    by_cases hc : y = 1 ∧ z = 1
    · rw [if_pos hc] at hm
      simp at hm
    rw [if_neg hc] at hm
    by_cases he : getStone s.stones x y z = .None
    swap
    · rw [if_neg he] at hm
      simp at hm
    rw [if_pos he] at hm
    refine ⟨hc, he, ?_⟩
    by_cases hw : will_make_line s x y z = true
    · rw [if_pos hw, List.mem_map] at hm
      obtain ⟨r, hr, rfl⟩ := hm
      exact Or.inl ⟨hw, r, hr, rfl⟩
    · rw [if_neg hw] at hm
      simp only [List.mem_singleton] at hm
      exact Or.inr ⟨Bool.eq_false_iff.mpr hw, hm⟩
  · rintro ⟨x, y, z, hx, hy, hz, hc, he, h⟩
    refine ⟨x, hx, y, hy, z, hz, ?_⟩
    rw [if_neg hc, if_pos he]
    rcases h with ⟨hw, r, hr, rfl⟩ | ⟨hw, rfl⟩
    · rw [if_pos hw, List.mem_map]
      exact ⟨r, hr, rfl⟩
    · rw [if_neg (by simp [hw])]
      simp

theorem mem_get_moves_moving {s : MicaState} (hs : is_setting_phase s = false) {m : MicaMove} :
    m ∈ get_moves s ↔
      ∃ fx fy fz, fx < 3 ∧ fy < 3 ∧ fz < 3 ∧ ¬(fy = 1 ∧ fz = 1) ∧
        getStone s.stones fx fy fz = .None ∧
        ∃ t ∈ get_neighboaring_empty_spots s fx fy fz,
          ((will_make_line s t.1 t.2.1 t.2.2 = true ∧
            ∃ r ∈ get_oponent_stones s,
              m = .MoveRemove fx fy fz t.1 t.2.1 t.2.2 r.1 r.2.1 r.2.2) ∨
           (will_make_line s t.1 t.2.1 t.2.2 = false ∧
            m = .Move fx fy fz t.1 t.2.1 t.2.2)) := by
  rw [get_moves, if_neg (by simp [hs])]
  simp only [List.mem_flatMap, mem_range3]
  constructor
  · rintro ⟨fx, hx, fy, hy, fz, hz, hm⟩
    refine ⟨fx, fy, fz, hx, hy, hz, ?_⟩
    by_cases hc : fy = 1 ∧ fz = 1
    · rw [if_pos hc] at hm
      simp at hm
    rw [if_neg hc] at hm
    by_cases he : getStone s.stones fx fy fz = .None
    swap
    · rw [if_neg he] at hm
      simp at hm
    rw [if_pos he] at hm
    refine ⟨hc, he, ?_⟩
    rw [List.mem_flatMap] at hm
    obtain ⟨t, ht, hm⟩ := hm
    refine ⟨t, ht, ?_⟩
    by_cases hw : will_make_line s t.1 t.2.1 t.2.2 = true
    · rw [if_pos hw, List.mem_map] at hm
      obtain ⟨r, hr, rfl⟩ := hm
      exact Or.inl ⟨hw, r, hr, rfl⟩
    · rw [if_neg hw] at hm
      simp only [List.mem_singleton] at hm
      exact Or.inr ⟨Bool.eq_false_iff.mpr hw, hm⟩
  · rintro ⟨fx, fy, fz, hx, hy, hz, hc, he, t, ht, h⟩
    refine ⟨fx, hx, fy, hy, fz, hz, ?_⟩
    rw [if_neg hc, if_pos he, List.mem_flatMap]
    refine ⟨t, ht, ?_⟩
    rcases h with ⟨hw, r, hr, rfl⟩ | ⟨hw, rfl⟩
    · rw [if_pos hw, List.mem_map]
      exact ⟨r, hr, rfl⟩
    · rw [if_neg (by simp [hw])]
      simp

/-! ### Spec-side predicates

These definitions transcribe the specification's wording (lines as
cell-triples, mills as three same-player stones, mill completion as a
two-stone line) independently of the code's signed-sum tests, so the
theorems below genuinely relate the code to the spec. -/

/-- The three lines through a cell, as in spec section 3: fixed ring varying
col, fixed ring varying row, fixed row and col varying ring. -/
def linesThrough (x y z : Nat) : List (List (Nat × Nat × Nat)) :=
  [[(x, y, 0), (x, y, 1), (x, y, 2)],
   [(x, 0, z), (x, 1, z), (x, 2, z)],
   [(0, y, z), (1, y, z), (2, y, z)]]

/-- The stones on a line. -/
def lineStones (s : MicaState) (L : List (Nat × Nat × Nat)) : List MicaPlayer :=
  L.map fun c => getStone s.stones c.1 c.2.1 c.2.2

/-- Claim C4's stated mill-completion condition: some line through the cell
already holds two stones of the current player. -/
def completes_own_mill (s : MicaState) (x y z : Nat) : Prop :=
  ∃ L ∈ linesThrough x y z, (lineStones s L).count s.current_player = 2

/-- The corrected mill-completion condition: some line through the cell holds
exactly two stones of a single colour (either player's) and one empty cell. -/
def completes_some_mill (s : MicaState) (x y z : Nat) : Prop :=
  ∃ L ∈ linesThrough x y z, ∃ w : MicaPlayer, w ≠ .None ∧
    (lineStones s L).count w = 2 ∧ (lineStones s L).count .None = 1

/-- The spec's completed-mill condition at a cell: some line through it has
all three cells owned by one player. -/
def in_completed_mill (s : MicaState) (x y z : Nat) : Prop :=
  ∃ L ∈ linesThrough x y z, ∃ w : MicaPlayer, w ≠ .None ∧
    ∀ c ∈ L, getStone s.stones c.1 c.2.1 c.2.2 = w

instance (s : MicaState) (x y z : Nat) : Decidable (completes_own_mill s x y z) :=
  inferInstanceAs (Decidable (∃ L ∈ linesThrough x y z,
    (lineStones s L).count s.current_player = 2))

instance (s : MicaState) (x y z : Nat) : Decidable (completes_some_mill s x y z) :=
  inferInstanceAs (Decidable (∃ L ∈ linesThrough x y z, ∃ w : MicaPlayer, w ≠ .None ∧
    (lineStones s L).count w = 2 ∧ (lineStones s L).count .None = 1))

instance (s : MicaState) (x y z : Nat) : Decidable (in_completed_mill s x y z) :=
  inferInstanceAs (Decidable (∃ L ∈ linesThrough x y z, ∃ w : MicaPlayer, w ≠ .None ∧
    ∀ c ∈ L, getStone s.stones c.1 c.2.1 c.2.2 = w))

theorem sum_two_iff : ∀ (p q r : MicaPlayer),
    (p.val + q.val + r.val).natAbs = 2 ↔
      ∃ w : MicaPlayer, w ≠ .None ∧
        ([p, q, r].count w = 2 ∧ [p, q, r].count MicaPlayer.None = 1) := by
  decide

theorem sum_three_iff : ∀ (p q r : MicaPlayer),
    (p.val + q.val + r.val).natAbs = 3 ↔
      ∃ w : MicaPlayer, w ≠ .None ∧ p = w ∧ q = w ∧ r = w := by
  decide

theorem will_make_line_iff (s : MicaState) (x y z : Nat) :
    will_make_line s x y z = true ↔ completes_some_mill s x y z := by
  have h1 := sum_two_iff (getStone s.stones x y 0) (getStone s.stones x y 1)
    (getStone s.stones x y 2)
  have h2 := sum_two_iff (getStone s.stones x 0 z) (getStone s.stones x 1 z)
    (getStone s.stones x 2 z)
  have h3 := sum_two_iff (getStone s.stones 0 y z) (getStone s.stones 1 y z)
    (getStone s.stones 2 y z)
  simp only [will_make_line, line_check, Bool.or_eq_true, beq_iff_eq]
  rw [h1, h2, h3]
  constructor
  · rintro ((h | h) | h)
    · exact ⟨[(x, y, 0), (x, y, 1), (x, y, 2)], by simp [linesThrough], by
        simpa [lineStones] using h⟩
    · exact ⟨[(x, 0, z), (x, 1, z), (x, 2, z)], by simp [linesThrough], by
        simpa [lineStones] using h⟩
    · exact ⟨[(0, y, z), (1, y, z), (2, y, z)], by simp [linesThrough], by
        simpa [lineStones] using h⟩
  · rintro ⟨L, hL, h⟩
    simp only [linesThrough, List.mem_cons, List.not_mem_nil, or_false] at hL
    rcases hL with rfl | rfl | rfl
    · exact Or.inl (Or.inl (by simpa [lineStones] using h))
    · exact Or.inl (Or.inr (by simpa [lineStones] using h))
    · exact Or.inr (by simpa [lineStones] using h)

theorem is_in_line_iff (s : MicaState) (x y z : Nat) :
    is_in_line s x y z = true ↔ in_completed_mill s x y z := by
  have h1 := sum_three_iff (getStone s.stones x y 0) (getStone s.stones x y 1)
    (getStone s.stones x y 2)
  have h2 := sum_three_iff (getStone s.stones x 0 z) (getStone s.stones x 1 z)
    (getStone s.stones x 2 z)
  have h3 := sum_three_iff (getStone s.stones 0 y z) (getStone s.stones 1 y z)
    (getStone s.stones 2 y z)
  simp only [is_in_line, line_check, Bool.or_eq_true, beq_iff_eq]
  rw [h1, h2, h3]
  constructor
  · rintro ((h | h) | h)
    · exact ⟨[(x, y, 0), (x, y, 1), (x, y, 2)], by simp [linesThrough], by
        simpa using h⟩
    · exact ⟨[(x, 0, z), (x, 1, z), (x, 2, z)], by simp [linesThrough], by
        simpa using h⟩
    · exact ⟨[(0, y, z), (1, y, z), (2, y, z)], by simp [linesThrough], by
        simpa using h⟩
  · rintro ⟨L, hL, h⟩
    simp only [linesThrough, List.mem_cons, List.not_mem_nil, or_false] at hL
    rcases hL with rfl | rfl | rfl
    · exact Or.inl (Or.inl (by simpa using h))
    · exact Or.inl (Or.inr (by simpa using h))
    · exact Or.inr (by simpa using h)

/-- Does a move mention a ring-center cell (row 1, col 1) in any of its
coordinate triples (placement, slide origin, slide destination, removal
target)? -/
def mentions_center : MicaMove → Bool
  | .Set _ y z => decide (y = 1 ∧ z = 1)
  | .Move _ fy fz _ ty tz => decide (fy = 1 ∧ fz = 1) || decide (ty = 1 ∧ tz = 1)
  | .SetRemove _ y z _ ry rz => decide (y = 1 ∧ z = 1) || decide (ry = 1 ∧ rz = 1)
  | .MoveRemove _ fy fz _ ty tz _ ry rz =>
      decide (fy = 1 ∧ fz = 1) || decide (ty = 1 ∧ tz = 1) || decide (ry = 1 ∧ rz = 1)

/-- The removal target of a `SetRemove`/`MoveRemove` move, if any. -/
def removal_target : MicaMove → Option (Nat × Nat × Nat)
  | .SetRemove _ _ _ rx ry rz => some (rx, ry, rz)
  | .MoveRemove _ _ _ _ _ _ rx ry rz => some (rx, ry, rz)
  | _ => Option.none

/-! ### Claim theorems -/

/-- C5: `is_end` holds exactly when both to-place counters are zero and one
side is down to two stones on the board; it is false otherwise. -/
theorem c5_is_end_iff (s : MicaState) :
    is_end s = true ↔
      (s.white_to_set = 0 ∧ s.black_to_set = 0) ∧
      (s.white_remaining = 2 ∨ s.black_remaining = 2) := by
  simp [is_end]

/-- C8: whenever the depth is zero or the state is terminal, `minimax`
returns exactly the evaluation `white_remaining - black_remaining` and no
move, leaving the state untouched. -/
theorem c8_terminal_eval (s : MicaState) (d : Nat) (a b : Int)
    (h : d = 0 ∨ is_end s = true) :
    minimax d s a b =
      some (s, (s.white_remaining : Int) - (s.black_remaining : Int), Option.none) := by
  rcases h with rfl | h
  · simp [minimax, eval]
  · cases d with
    | zero => simp [minimax, eval]
    | succ n => simp [minimax, h, eval]

/-- C8 witness: on the freshly constructed empty state at depth 0, `minimax`
returns value 0 and no move. -/
theorem c8_terminal_eval_witness :
    minimax 0 MicaState.new i32Min i32Max = some (MicaState.new, 0, Option.none) := by
  have h := c8_terminal_eval MicaState.new 0 i32Min i32Max (Or.inl rfl)
  simpa using h

/-- C3 (failing input): in the movement phase on `micaS0`, `get_moves` emits
the slide (0,0,2) → (0,1,2) although its origin (0,0,2) is empty, not occupied
by the side to move (White). -/
theorem c3_empty_origin_slide :
    MicaMove.Move 0 0 2 0 1 2 ∈ get_moves micaS0 ∧
    is_setting_phase micaS0 = false ∧
    getStone micaS0.stones 0 0 2 = MicaPlayer.None ∧
    micaS0.current_player = MicaPlayer.White := by
  decide

/-- C1 (counterexample): for the generator-emitted slide (0,0,2) → (0,1,2) on
the movement-phase state `micaS0`, undoing right after applying does not
restore the state (the empty origin ends up holding the mover's stone). -/
theorem c1_counterexample :
    MicaMove.Move 0 0 2 0 1 2 ∈ get_moves micaS0 ∧
    undo_move (apply_move micaS0 (MicaMove.Move 0 0 2 0 1 2))
      (MicaMove.Move 0 0 2 0 1 2) ≠ micaS0 := by
  decide

set_option maxRecDepth 100000 in
/-- C10 (failing input): `minimax` at depth 1 on the movement-phase state
`micaS0` returns with the state changed — the per-move undo does not restore
the board after the generator's empty-origin slides. -/
theorem c10_minimax_mutates :
    Option.map (fun r : SearchResult => r.1) (minimax 1 micaS0 i32Min i32Max) ≠
      some micaS0 := by
  decide

set_option maxRecDepth 100000 in
/-- C2 (failing input): on `micaC2` at depth 2, alpha-beta with the initial
window `(i32Min, i32Max)` returns value `i32Max` while the full-width
(no pruning) minimax over the same move generator returns value 0. -/
theorem c2_alpha_beta_differs :
    Option.map (fun r : SearchResult => r.2.1) (minimax 2 micaC2 i32Min i32Max) =
      some i32Max ∧
    Option.map (fun r : SearchResult => r.2.1) (minimax_full 2 micaC2) = some 0 := by
  decide

/-- C4 (counterexample): in the placement phase on `micaS1`, `get_moves`
emits `SetRemove` moves at (0,0,2) although no line through (0,0,2) holds two
stones of the current player (the completed pair on the line is Black's, and
White is to move). -/
theorem c4_counterexample :
    MicaMove.SetRemove 0 0 2 0 0 0 ∈ get_moves micaS1 ∧
    ¬ completes_own_mill micaS1 0 0 2 := by
  decide

/-- The to-place counter of the side to move. -/
def player_to_set (s : MicaState) : Nat :=
  match s.current_player with
  | .White => s.white_to_set
  | .Black => s.black_to_set
  | .None => 0

/-- The on-board counter of the opponent of the side to move. -/
def oponent_remaining (s : MicaState) : Nat :=
  match s.current_player with
  | .White => s.black_remaining
  | .Black => s.white_remaining
  | .None => 0

/-- Legality of a move in the intended (rule-book) sense used by the spec's
undo/apply contract: a placement targets an empty cell while the mover still
has stones to place; a slide starts from a cell occupied by the mover and
ends on an empty cell; a removal targets a cell holding an opponent stone
while the opponent still has stones on the board. -/
def legal_move (s : MicaState) : MicaMove → Bool
  | .Set x y z =>
      getStone s.stones x y z == .None && decide (0 < player_to_set s)
  | .Move fx fy fz tx ty tz =>
      getStone s.stones fx fy fz == s.current_player &&
      (getStone s.stones tx ty tz == .None)
  | .SetRemove x y z rx ry rz =>
      getStone s.stones x y z == .None &&
      (getStone s.stones rx ry rz == s.current_player.intoNextPlayer) &&
      decide (0 < player_to_set s) && decide (0 < oponent_remaining s)
  | .MoveRemove fx fy fz tx ty tz rx ry rz =>
      getStone s.stones fx fy fz == s.current_player &&
      (getStone s.stones tx ty tz == .None) &&
      (getStone s.stones rx ry rz == s.current_player.intoNextPlayer) &&
      decide (0 < oponent_remaining s)

/-- C1 (amended): on every state whose side to move is White or Black,
applying a move that is legal in the intended sense (slide origin occupied by
the mover — which the code's generator violates, see C3 — placement target
empty, removal target an opponent stone, positive counters) and then undoing
it restores every field of the state. -/
theorem c1_undo_apply_restores (s : MicaState) (m : MicaMove)
    (hcur : s.current_player = .White ∨ s.current_player = .Black)
    (hleg : legal_move s m = true) :
    undo_move (apply_move s m) m = s := by
  obtain ⟨cp, wr, br, wts, bts, st⟩ := s
  cases m with
  | Set x y z =>
    rcases hcur with rfl | rfl <;>
    · simp only [legal_move, Bool.and_eq_true, beq_iff_eq, decide_eq_true_eq, getStone,
        player_to_set] at hleg
      obtain ⟨he, hts⟩ := hleg
      simp only [apply_move, undo_move, increment_player, decrement_player,
        increment_remaining_to_set, decrement_remaining_to_set, setStone]
      rw [restore_set _ _ _ he]
      congr 1 <;> omega
  | Move fx fy fz tx ty tz =>
    rcases hcur with rfl | rfl <;>
    · simp only [legal_move, Bool.and_eq_true, beq_iff_eq, decide_eq_true_eq, getStone]
        at hleg
      obtain ⟨hf, ht⟩ := hleg
      simp only [apply_move, undo_move, setStone]
      rw [restore_move _ _ _ _ hf ht (by decide)]
  | SetRemove x y z rx ry rz =>
    rcases hcur with rfl | rfl <;>
    · simp only [legal_move, Bool.and_eq_true, beq_iff_eq, decide_eq_true_eq, getStone,
        player_to_set, oponent_remaining, MicaPlayer.intoNextPlayer] at hleg
      obtain ⟨⟨⟨he, hr⟩, hts⟩, hor⟩ := hleg
      simp only [apply_move, undo_move, increment_player, decrement_player,
        increment_oponent, decrement_oponent, increment_remaining_to_set,
        decrement_remaining_to_set, setStone, MicaPlayer.intoNextPlayer]
      rw [restore_setremove _ _ _ _ _ he hr (by decide)]
      congr 1 <;> omega
  | MoveRemove fx fy fz tx ty tz rx ry rz =>
    rcases hcur with rfl | rfl <;>
    · simp only [legal_move, Bool.and_eq_true, beq_iff_eq, decide_eq_true_eq, getStone,
        oponent_remaining, MicaPlayer.intoNextPlayer] at hleg
      obtain ⟨⟨⟨hf, ht⟩, hr⟩, hor⟩ := hleg
      simp only [apply_move, undo_move, increment_oponent, decrement_oponent, setStone,
        MicaPlayer.intoNextPlayer]
      rw [restore_moveremove _ _ _ _ _ _ hf ht hr (by decide) (by decide)]
      congr 1 <;> omega

/-- C1 witness: a concrete legal placement on `micaS1` is exactly undone. -/
theorem c1_undo_apply_restores_witness :
    undo_move (apply_move micaS1 (MicaMove.Set 1 0 0)) (MicaMove.Set 1 0 0) = micaS1 :=
  c1_undo_apply_restores micaS1 (MicaMove.Set 1 0 0) (Or.inl rfl) (by decide)

/-- C6: if no ring-center cell holds a player and the side to move is White
or Black, then no generated move mentions a center cell — not as placement
target, slide origin, slide destination, or removal target. -/
theorem c6_no_center (s : MicaState) (m : MicaMove)
    (hcur : s.current_player = .White ∨ s.current_player = .Black)
    (h0 : getStone s.stones 0 1 1 = .None) (h1 : getStone s.stones 1 1 1 = .None)
    (h2 : getStone s.stones 2 1 1 = .None)
    (hm : m ∈ get_moves s) : mentions_center m = false := by
  have hopp : s.current_player.intoNextPlayer ≠ MicaPlayer.None := by
    rcases hcur with h | h <;> simp [h, MicaPlayer.intoNextPlayer]
  have hrem : ∀ r : Nat × Nat × Nat, r ∈ get_oponent_stones s →
      ¬(r.2.1 = 1 ∧ r.2.2 = 1) := by
    rintro ⟨rx, ry, rz⟩ hr ⟨hy, hz⟩
    simp only at hy hz
    subst hy
    subst hz
    rw [mem_get_oponent_stones] at hr
    obtain ⟨hx3, _, _, hval, _⟩ := hr
    interval_cases rx <;> simp_all
  cases hsp : is_setting_phase s with
  | true =>
    rw [mem_get_moves_setting hsp] at hm
    obtain ⟨x, y, z, _, _, _, hc, _, hrest⟩ := hm
    rcases hrest with ⟨_, r, hr, rfl⟩ | ⟨_, rfl⟩
    · have hrc := hrem r hr
      simp only [mentions_center, Bool.or_eq_false_iff, decide_eq_false_iff_not]
      exact ⟨hc, hrc⟩
    · simp only [mentions_center, decide_eq_false_iff_not]
      exact hc
  | false =>
    rw [mem_get_moves_moving hsp] at hm
    obtain ⟨fx, fy, fz, _, _, _, hc, _, t, ht, hrest⟩ := hm
    have htc := not_center_of_mem_neighb ht
    rcases hrest with ⟨_, r, hr, rfl⟩ | ⟨_, rfl⟩
    · have hrc := hrem r hr
      simp only [mentions_center, Bool.or_eq_false_iff, decide_eq_false_iff_not]
      exact ⟨⟨hc, htc⟩, hrc⟩
    · simp only [mentions_center, Bool.or_eq_false_iff, decide_eq_false_iff_not]
      exact ⟨hc, htc⟩

/-- C6 witness: on the fresh empty state (centers empty) the generated
placement at (0,0,0) mentions no center cell. -/
theorem c6_no_center_witness : mentions_center (MicaMove.Set 0 0 0) = false :=
  c6_no_center MicaState.new (MicaMove.Set 0 0 0) (Or.inl rfl) (by decide) (by decide)
    (by decide) (by decide)

/-- C7: every removal target of a generated `SetRemove`/`MoveRemove` move
holds a stone of the opponent of the side to move and is not part of any
completed mill line (no line through it has all three cells owned by one
player). -/
theorem c7_removal_targets (s : MicaState) (m : MicaMove) (rx ry rz : Nat)
    (hcur : s.current_player = .White ∨ s.current_player = .Black)
    (hm : m ∈ get_moves s) (hr : removal_target m = some (rx, ry, rz)) :
    getStone s.stones rx ry rz = s.current_player.intoNextPlayer ∧
    getStone s.stones rx ry rz ≠ .None ∧
    ¬ in_completed_mill s rx ry rz := by
  have hopp : s.current_player.intoNextPlayer ≠ MicaPlayer.None := by
    rcases hcur with h | h <;> simp [h, MicaPlayer.intoNextPlayer]
  suffices hmem : (rx, ry, rz) ∈ get_oponent_stones s by
    rw [mem_get_oponent_stones] at hmem
    obtain ⟨_, _, _, hval, hline⟩ := hmem
    refine ⟨hval, by rw [hval]; exact hopp, ?_⟩
    rw [← is_in_line_iff]
    simp [hline]
  cases hsp : is_setting_phase s with
  | true =>
    rw [mem_get_moves_setting hsp] at hm
    obtain ⟨x, y, z, _, _, _, _, _, hrest⟩ := hm
    rcases hrest with ⟨_, ⟨r1, r2, r3⟩, hrr, rfl⟩ | ⟨_, rfl⟩
    · simp only [removal_target, Option.some.injEq, Prod.mk.injEq] at hr
      obtain ⟨rfl, rfl, rfl⟩ := hr
      exact hrr
    · simp [removal_target] at hr
  | false =>
    rw [mem_get_moves_moving hsp] at hm
    obtain ⟨fx, fy, fz, _, _, _, _, _, t, ht, hrest⟩ := hm
    rcases hrest with ⟨_, ⟨r1, r2, r3⟩, hrr, rfl⟩ | ⟨_, rfl⟩
    · simp only [removal_target, Option.some.injEq, Prod.mk.injEq] at hr
      obtain ⟨rfl, rfl, rfl⟩ := hr
      exact hrr
    · simp [removal_target] at hr

/-- C7 witness: the removal target (0,0,0) of the generated
`SetRemove (0,0,2) rm (0,0,0)` on `micaS1` holds an opponent (Black) stone
and sits in no completed mill. -/
theorem c7_removal_targets_witness :
    getStone micaS1.stones 0 0 0 = micaS1.current_player.intoNextPlayer ∧
    getStone micaS1.stones 0 0 0 ≠ .None ∧
    ¬ in_completed_mill micaS1 0 0 0 :=
  c7_removal_targets micaS1 (MicaMove.SetRemove 0 0 2 0 0 0) 0 0 0 (Or.inl rfl)
    (by decide) rfl

/-- C4 (amended): in the placement phase, for an empty non-center cell
(x,y,z): `SetRemove` placements there with removal target (rx,ry,rz) are
generated exactly when some line through the cell holds two stones of one
colour — either player's, not necessarily the current player's — plus an
empty cell, and the target is an opponent stone outside completed mills; a
plain `Set` there is generated exactly when no such line exists. -/
theorem c4_amended (s : MicaState) (x y z rx ry rz : Nat)
    (hs : is_setting_phase s = true)
    (hx : x < 3) (hy : y < 3) (hz : z < 3) (hc : ¬(y = 1 ∧ z = 1))
    (he : getStone s.stones x y z = .None) :
    (MicaMove.SetRemove x y z rx ry rz ∈ get_moves s ↔
      completes_some_mill s x y z ∧ (rx, ry, rz) ∈ get_oponent_stones s) ∧
    (MicaMove.Set x y z ∈ get_moves s ↔ ¬ completes_some_mill s x y z) := by
  constructor
  · rw [mem_get_moves_setting hs]
    constructor
    · rintro ⟨x', y', z', _, _, _, _, _, hrest⟩
      rcases hrest with ⟨hw, ⟨r1, r2, r3⟩, hrr, heq⟩ | ⟨_, heq⟩
      · simp only [MicaMove.SetRemove.injEq] at heq
        obtain ⟨rfl, rfl, rfl, rfl, rfl, rfl⟩ := heq
        exact ⟨(will_make_line_iff s x y z).mp hw, hrr⟩
      · exact MicaMove.noConfusion heq
    · rintro ⟨hmill, hrr⟩
      exact ⟨x, y, z, hx, hy, hz, hc, he,
        Or.inl ⟨(will_make_line_iff s x y z).mpr hmill, ⟨(rx, ry, rz), hrr, rfl⟩⟩⟩
  · rw [mem_get_moves_setting hs]
    constructor
    · rintro ⟨x', y', z', _, _, _, _, _, hrest⟩
      rcases hrest with ⟨_, r, _, heq⟩ | ⟨hw, heq⟩
      · exact MicaMove.noConfusion heq
      · simp only [MicaMove.Set.injEq] at heq
        obtain ⟨rfl, rfl, rfl⟩ := heq
        rw [← will_make_line_iff]
        simp [hw]
    · intro hmill
      exact ⟨x, y, z, hx, hy, hz, hc, he,
        Or.inr ⟨Bool.eq_false_iff.mpr
          (fun hcon => hmill ((will_make_line_iff s x y z).mp hcon)), rfl⟩⟩

/-- C4 witness: on `micaS1` the cell (0,0,2) sits on a two-Black line, so the
`SetRemove` at (0,0,2) removing (0,0,0) is generated and no plain `Set` at
(0,0,2) is. -/
theorem c4_amended_witness :
    (MicaMove.SetRemove 0 0 2 0 0 0 ∈ get_moves micaS1 ↔
      completes_some_mill micaS1 0 0 2 ∧ (0, 0, 0) ∈ get_oponent_stones micaS1) ∧
    (MicaMove.Set 0 0 2 ∈ get_moves micaS1 ↔ ¬ completes_some_mill micaS1 0 0 2) :=
  c4_amended micaS1 0 0 2 0 0 0 (by decide) (by decide) (by decide) (by decide)
    (by decide) (by decide)

end Mica
